import Mathlib

/-!
Verification development for the pyjavapoet rendering pipeline.

Python strings are modelled as `List Char` (`PStr`); Python `set`s and
`dict`s are modelled as insertion-ordered lists with dedup-on-insert,
which matches CPython's observable behaviour for the operations used
here (membership, iteration after sorting).  Machine-level details that
the modelled fragment never exercises (interning, reference identity)
are not modelled.
-/

namespace PyJavaPoet

/-- Python strings, modelled as lists of characters. -/
abbrev PStr := List Char

/-- Lexicographic (code-point) comparison of Python strings: `a <= b`.
Models CPython `str` comparison used by `sorted`. -/
def lexLeB : PStr → PStr → Bool
  | [], _ => true
  | _ :: _, [] => false
  | a :: as, b :: bs =>
    if a.toNat < b.toNat then true
    else if b.toNat < a.toNat then false
    else lexLeB as bs

/-- `lexLeB` as a relation, for Mathlib's sorting lemmas. -/
def lexLeP (a b : PStr) : Prop := lexLeB a b = true

instance : DecidableRel lexLeP := fun a b =>
  inferInstanceAs (Decidable (lexLeB a b = true))

theorem lexLeB_total (a b : PStr) : lexLeB a b = true ∨ lexLeB b a = true := by
  induction a generalizing b with
  | nil => left; rfl
  | cons x xs ih =>
    cases b with
    | nil => right; rfl
    | cons y ys =>
      by_cases hxy : x.toNat < y.toNat
      · left; simp [lexLeB, hxy]
      · by_cases hyx : y.toNat < x.toNat
        · right; simp [lexLeB, hyx]
        · rcases ih ys with h | h
          · left; simp [lexLeB, hxy, hyx, h]
          · right; simp [lexLeB, hyx, hxy, h]

theorem lexLeB_trans (a b c : PStr) (h₁ : lexLeB a b = true)
    (h₂ : lexLeB b c = true) : lexLeB a c = true := by
  induction a generalizing b c with
  | nil => rfl
  | cons x xs ih =>
    cases b with
    | nil => simp [lexLeB] at h₁
    | cons y ys =>
      cases c with
      | nil => simp [lexLeB] at h₂
      | cons z zs =>
        simp only [lexLeB] at h₁ h₂ ⊢
        by_cases hxy : x.toNat < y.toNat
        · by_cases hyz : y.toNat < z.toNat
          · simp [show x.toNat < z.toNat by omega]
          · by_cases hzy : z.toNat < y.toNat
            · simp [hyz, hzy] at h₂
            · simp [show x.toNat < z.toNat by omega]
        · by_cases hyx : y.toNat < x.toNat
          · simp [hxy, hyx] at h₁
          · by_cases hyz : y.toNat < z.toNat
            · simp [show x.toNat < z.toNat by omega]
            · by_cases hzy : z.toNat < y.toNat
              · simp [hyz, hzy] at h₂
              · have hxz : ¬ x.toNat < z.toNat := by omega
                have hzx : ¬ z.toNat < x.toNat := by omega
                simp only [hxy, hyx, if_false] at h₁
                simp only [hyz, hzy, if_false] at h₂
                simp [hxz, hzx, ih ys zs h₁ h₂]

instance : IsTotal PStr lexLeP := ⟨lexLeB_total⟩

instance : IsTrans PStr lexLeP := ⟨fun a b c => lexLeB_trans a b c⟩

/-- Split a character list at every occurrence of `sep`
(Python `s.split(sep)`; the result is never empty). -/
def splitOnC (sep : Char) : PStr → List PStr
  | [] => [[]]
  | c :: t =>
    if c = sep then [] :: splitOnC sep t
    else
      match splitOnC sep t with
      | [] => [[c]]
      | h :: r => (c :: h) :: r

theorem splitOnC_ne_nil (sep : Char) (s : PStr) : splitOnC sep s ≠ [] := by
  cases s with
  | nil => simp [splitOnC]
  | cons c t =>
    by_cases h : c = sep
    · simp [splitOnC, h]
    · simp only [splitOnC, h, if_false]
      cases splitOnC sep t <;> simp

/-- Join with a separator character (Python `sep.join(parts)`). -/
def intercalateC (sep : Char) : List PStr → PStr
  | [] => []
  | l :: rest => l ++ (rest.map (fun l₂ => sep :: l₂)).flatten

theorem intercalateC_splitOnC (sep : Char) (s : PStr) :
    intercalateC sep (splitOnC sep s) = s := by
  induction s with
  | nil => rfl
  | cons c t ih =>
    by_cases h : c = sep
    · subst h
      simp only [splitOnC, if_pos rfl, intercalateC]
      have := splitOnC_ne_nil c t
      cases hs : splitOnC c t with
      | nil => exact absurd hs this
      | cons h₂ r =>
        simp only [hs, intercalateC] at ih
        simp [intercalateC, ih]
    · simp only [splitOnC, h, if_false]
      cases hs : splitOnC sep t with
      | nil => exact absurd hs (splitOnC_ne_nil sep t)
      | cons h₂ r =>
        simp only [hs, intercalateC] at ih ⊢
        simp [ih]

/-- Decidable substring test (models Python's `in` on strings,
used only to state "the error message mentions …"). -/
def containsSub (hay needle : PStr) : Bool :=
  needle.isPrefixOf hay ||
    match hay with
    | [] => false
    | _ :: t => containsSub t needle

/-- ASCII lowercasing of a character (used only to state
case-insensitive "mentions" properties). -/
def lowerChar (c : Char) : Char :=
  if 65 ≤ c.toNat ∧ c.toNat ≤ 90 then Char.ofNat (c.toNat + 32) else c

/-- ASCII lowercasing of a string. -/
def lowerAscii (s : PStr) : PStr := s.map lowerChar

/-- Python `set.add` on an insertion-ordered list model of a set. -/
def setInsert (l : List PStr) (x : PStr) : List PStr :=
  if x ∈ l then l else l ++ [x]

/-- Python `str.rsplit(".", 1)` for a string known to contain a dot:
everything before the last dot, and everything after it. -/
def rsplitDot (s : PStr) : PStr × PStr :=
  let r := s.reverse
  let nameRev := r.takeWhile (fun c => c != '.')
  ((r.drop (nameRev.length + 1)).reverse, nameRev.reverse)

/-- Python `s.endswith(".*")`. -/
def endsWithDotStar (s : PStr) : Bool :=
  ['.', '*'].isSuffixOf s

/-- `Modifier` enum from `pyjavapoet/modifier.py` (member names kept). -/
inductive Modifier where
  | PUBLIC | PROTECTED | PRIVATE
  | ABSTRACT | DEFAULT | STATIC | FINAL
  | SYNCHRONIZED | NATIVE | STRICTFP
  | TRANSIENT | VOLATILE
  | SEALED | NON_SEALED
  deriving DecidableEq

namespace Modifier

/-- The `value` of each enum member (the Java keyword string). -/
def value : Modifier → PStr
  | PUBLIC => "public".toList
  | PROTECTED => "protected".toList
  | PRIVATE => "private".toList
  | ABSTRACT => "abstract".toList
  | DEFAULT => "default".toList
  | STATIC => "static".toList
  | FINAL => "final".toList
  | SYNCHRONIZED => "synchronized".toList
  | NATIVE => "native".toList
  | STRICTFP => "strictfp".toList
  | TRANSIENT => "transient".toList
  | VOLATILE => "volatile".toList
  | SEALED => "sealed".toList
  | NON_SEALED => "non-sealed".toList

/-- The canonical `order` list from `Modifier.ordered_modifiers`. -/
def canonicalOrder : List Modifier :=
  [PUBLIC, PROTECTED, PRIVATE, ABSTRACT, STATIC, FINAL,
   TRANSIENT, VOLATILE, SYNCHRONIZED, NATIVE, STRICTFP,
   SEALED, NON_SEALED, DEFAULT]

/-- `order_map.get(x, 100)`: index of a modifier in the canonical order. -/
def orderIndex (m : Modifier) : Nat :=
  match canonicalOrder.indexOf? m with
  | some i => i
  | none => 100

/-- Comparison used by `Modifier.ordered_modifiers`
(`sorted(modifiers, key=lambda x: order_map.get(x, 100))`). -/
def orderLe (a b : Modifier) : Prop := orderIndex a ≤ orderIndex b

instance : DecidableRel orderLe := fun a b =>
  inferInstanceAs (Decidable (orderIndex a ≤ orderIndex b))

/-- `Modifier.ordered_modifiers`: sort a modifier set into canonical order
(insertion sort is stable, like CPython's `sorted`). -/
def ordered_modifiers (mods : List Modifier) : List Modifier :=
  List.insertionSort orderLe mods

/-- Comparison by keyword string, as used by
`sorted(self.modifiers, key=lambda m: m.value)` in
`MethodSpec.emit` and `TypeSpec.emit`. -/
def valueLe (a b : Modifier) : Prop := lexLeP a.value b.value

instance : DecidableRel valueLe := fun a b =>
  inferInstanceAs (Decidable (lexLeP a.value b.value))

/-- The alphabetical modifier ordering that `MethodSpec.emit` (lines
102–105) and `TypeSpec.emit` (lines 144–147) actually emit. -/
def sortedByValue (mods : List Modifier) : List Modifier :=
  List.insertionSort valueLe mods

/-- The modifier keyword text emitted by `MethodSpec.emit`/`TypeSpec.emit`:
each sorted keyword followed by a single space. -/
def emittedModifierText (mods : List Modifier) : PStr :=
  ((sortedByValue mods).map (fun m => m.value ++ [' '])).flatten

end Modifier

/-- Java type references from `pyjavapoet/type_name.py`: `ClassName`
(package name and nested simple-name path), `ArrayTypeName`,
`ParameterizedTypeName` (raw `ClassName` inlined as package/names,
optional owner — a `ParameterizedTypeName` in the source),
`TypeVariableName` and `WildcardTypeName`.  The `annotations` list each
variant carries in the source is not modelled (no claim settled here
depends on type-use annotations, and `ClassName.__eq__` ignores them). -/
inductive TypeName where
  | className (packageName : PStr) (simpleNames : List PStr)
  | arrayType (componentType : TypeName)
  | parameterized (rawPackage : PStr) (rawNames : List PStr)
      (typeArguments : List TypeName) (ownerType : Option TypeName)
  | typeVariable (name : PStr) (bounds : List TypeName)
  | wildcard (upperBounds : List TypeName) (lowerBounds : List TypeName)

/-- `TypeName.OBJECT = ClassName.get("java.lang", "Object")`. -/
def objectType : TypeName :=
  .className "java.lang".toList ["Object".toList]

/-- `upper_bounds[0] == TypeName.OBJECT` as evaluated by Python:
`ClassName.__eq__` is structural; every other variant falls back to
identity equality and so never equals the distinct `OBJECT` instance. -/
def eqObjectB : TypeName → Bool
  | .className p n => p = "java.lang".toList && n = ["Object".toList]
  | _ => false

/-- The nine primitive-type tokens of `TypeName.PRIMITIVE_TYPES`. -/
def primitiveNames : List PStr :=
  ["boolean".toList, "byte".toList, "short".toList, "int".toList,
   "long".toList, "char".toList, "float".toList, "double".toList,
   "void".toList]

/-- The string case of `TypeName.get`: primitive tokens become
`ClassName.get("", tok)`; dotted strings are `rsplit` at the last dot;
anything else becomes a default-package class. -/
def typeNameGetStr (s : PStr) : TypeName :=
  if s ∈ primitiveNames then .className [] [s]
  else if '.' ∈ s then
    let pn := rsplitDot s
    .className pn.1 [pn.2]
  else .className [] [s]

/-- `type_mapping` in `TypeName.get` (Python type name → Java type string). -/
def typeMapping : List (PStr × PStr) :=
  [("bool".toList, "boolean".toList), ("int".toList, "int".toList),
   ("float".toList, "float".toList), ("str".toList, "java.lang.String".toList),
   ("list".toList, "java.util.List".toList), ("dict".toList, "java.util.Map".toList),
   ("set".toList, "java.util.Set".toList), ("tuple".toList, "java.util.List".toList),
   ("None".toList, "void".toList)]

/-- The possible Python arguments to `TypeName.get`: an existing
`TypeName`, a string, a Python `type` object (identified by its
`__name__`), or any other Python value (`other`). -/
inductive PyVal where
  | ofTypeName (t : TypeName)
  | ofStr (s : PStr)
  | ofPyType (typeName : PStr)
  | other

/-- `TypeName.get` from `type_name.py` lines 99–149.  When none of the
`isinstance` branches fire the function falls off its end, i.e. returns
Python `None` — modelled as `Option.none`. -/
def typeNameGet : PyVal → Option TypeName
  | .ofTypeName t => some t
  | .ofStr s => some (typeNameGetStr s)
  | .ofPyType n =>
    match typeMapping.lookup n with
    | some m => some (typeNameGetStr m)
    | none => some objectType
  | .other => none

/-- `part and part[0].isupper()` in `ClassName.get_from_fqcn`:
Python's Unicode-aware `str.isupper()` on the first character,
modelled on the Basic Latin and Latin-1 ranges (which cover every
character appearing in this development). -/
def startsUpperPy : PStr → Bool
  | [] => false
  | c :: _ =>
    (65 ≤ c.toNat && c.toNat ≤ 90) ||
    (0xC0 ≤ c.toNat && c.toNat ≤ 0xD6) ||
    (0xD8 ≤ c.toNat && c.toNat ≤ 0xDE)

/-- The loop body of `ClassName.get_from_fqcn`: a segment joins the
class path once the class path is non-empty or its first character is
uppercase, otherwise the package. -/
def fqcnStep (acc : List PStr × List PStr) (part : PStr) : List PStr × List PStr :=
  if acc.2 ≠ [] ∨ startsUpperPy part then (acc.1, acc.2 ++ [part])
  else (acc.1 ++ [part], acc.2)

/-- `ClassName.get_from_fqcn` (type_name.py lines 246–271), returning
the package string and the class-path segments. -/
def getFromFqcn (s : PStr) : PStr × List PStr :=
  if '.' ∈ s then
    let parts := splitOnC '.' s
    let pc := parts.foldl fqcnStep ([], [])
    (intercalateC '.' pc.1, pc.2)
  else ([], [s])

/-- The splitting behaviour claimed by the spec, word for word: the
class path starts at the first segment beginning with an uppercase
ASCII letter; every earlier segment is namespace. -/
def claimSplitFqcn (s : PStr) : PStr × List PStr :=
  let parts := splitOnC '.' s
  let startsUpperAscii : PStr → Bool := fun p =>
    match p with
    | [] => false
    | c :: _ => 65 ≤ c.toNat && c.toNat ≤ 90
  (intercalateC '.' (parts.takeWhile (fun p => ¬ startsUpperAscii p)),
   parts.dropWhile (fun p => ¬ startsUpperAscii p))

/-- `CodeWriter` state from `pyjavapoet/code_writer.py`: output buffer,
indent string and level, line-start flag, and the running import set
(`required_imports`, a set of `ClassName`s keyed by their structural
equality — modelled as the package/simple-names pairs, insertion
ordered). -/
structure CodeWriter where
  out : PStr
  indentStr : PStr
  indentLevel : Nat
  lineStart : Bool
  requiredImports : List (PStr × List PStr)

/-- `CodeWriter()` with the default two-space indent. -/
def freshWriter : CodeWriter :=
  { out := [], indentStr := "  ".toList, indentLevel := 0,
    lineStart := true, requiredImports := [] }

/-- The indent text for the current level (`self.indent * self.indent_level`). -/
def indentText (w : CodeWriter) : PStr :=
  (List.replicate w.indentLevel w.indentStr).flatten

/-- The join step of `CodeWriter.emit`'s line loop: the first split line
verbatim, every later line preceded by a newline and — when non-empty —
the indent text. -/
def joinLinesWith (ind : PStr) : List PStr → PStr
  | [] => []
  | first :: rest =>
    first ++ (rest.map (fun l => '\n' :: ((if l = [] then [] else ind) ++ l))).flatten

namespace CodeWriter

/-- The body of `CodeWriter.emit` after the leading-newline strip
(code_writer.py lines 109–133): return early on empty, prefix the
indent at line start, then re-emit the newline-split lines with
indentation, finally updating the line-start flag from the trailing
character. -/
def emitCore (w : CodeWriter) (s : PStr) : CodeWriter :=
  if s = [] then w
  else if w.lineStart then
    { w with
      out := w.out ++ indentText w ++ joinLinesWith (indentText w) (splitOnC '\n' s),
      lineStart := s.getLast? = some '\n' }
  else
    { w with
      out := w.out ++ joinLinesWith (indentText w) (splitOnC '\n' s),
      lineStart := s.getLast? = some '\n' }

/-- `CodeWriter.emit` (code_writer.py lines 93–133): when the text
starts with a newline (`s.startswith("\n")`), emit that newline, set
the line-start flag and continue with the remainder. -/
def emit (w : CodeWriter) (s : PStr) : CodeWriter :=
  if s.head? = some '\n' then
    emitCore { w with out := w.out ++ ['\n'], lineStart := true } s.tail
  else emitCore w s

/-- `self.required_imports.add(type_name)` — set insertion keyed by
`ClassName.__eq__`/`__hash__` (structural on package and simple names). -/
def addImport (w : CodeWriter) (k : PStr × List PStr) : CodeWriter :=
  if k ∈ w.requiredImports then w
  else { w with requiredImports := w.requiredImports ++ [k] }

end CodeWriter

/-- `simple_names[-1]`; the source raises `IndexError` on an empty list,
a state no modelled claim exercises (the default is never reached in
any theorem below). -/
def lastName (names : List PStr) : PStr := names.getLastD []

/-- The `ClassName` branch of `CodeWriter.emit_type` (code_writer.py
lines 172–177): a `ClassName` with a non-empty package is added to
`required_imports`, and only its simple name is printed. -/
def classNameEmitType (p : PStr) (n : List PStr) (w : CodeWriter) : CodeWriter :=
  let w₁ := if p ≠ [] then w.addImport (p, n) else w
  w₁.emit (lastName n)

mutual

/-- `TypeName.emit` per variant (type_name.py), with type-use
annotations not modelled:
`ClassName.emit` delegates to `code_writer.emit_type(self)` (whose
`ClassName` branch is `classNameEmitType`);
`ArrayTypeName.emit` emits the component then `[]`;
`ParameterizedTypeName.emit` emits the owner or raw type
(`paramOwnerEmit`) then its argument list (`typeArgsEmit`);
`TypeVariableName.emit` emits the name then its bounds
(`boundsEmit " extends "`); `WildcardTypeName.emit` emits `?`, the
upper bounds (`wildcardUppersEmit`) and the lower bounds
(`boundsEmit " super "`). -/
def typeEmit (t : TypeName) (w : CodeWriter) : CodeWriter :=
  match t with
  | .className p n => classNameEmitType p n w
  | .arrayType comp => (typeEmit comp w).emit "[]".toList
  | .parameterized rawPkg rawNames args owner =>
    typeArgsEmit args (paramOwnerEmit rawPkg rawNames owner w)
  | .typeVariable n bounds => boundsEmit " extends ".toList bounds (w.emit n)
  | .wildcard uppers lowers =>
    boundsEmit " super ".toList lowers (wildcardUppersEmit uppers (w.emit "?".toList))

/-- The owner/raw part of `ParameterizedTypeName.emit` (type_name.py
lines 364–371): with an owner, emit it, a dot and the raw type's last
simple name; otherwise emit the raw `ClassName`. -/
def paramOwnerEmit (rawPkg : PStr) (rawNames : List PStr) (owner : Option TypeName)
    (w : CodeWriter) : CodeWriter :=
  match owner with
  | some o => ((typeEmit o w).emit ".".toList).emit (lastName rawNames)
  | none => classNameEmitType rawPkg rawNames w

/-- The `<args>` part of `ParameterizedTypeName.emit` (type_name.py
lines 373–380), emitted only when the argument list is non-empty. -/
def typeArgsEmit (args : List TypeName) (w : CodeWriter) : CodeWriter :=
  match args with
  | [] => w
  | a :: rest =>
    (typeEmitSep ", ".toList rest (typeEmit a (w.emit "<".toList))).emit ">".toList

/-- A keyword-introduced bound list (`" extends "`/`" super "` followed
by bounds joined with `" & "`), emitted only when non-empty. -/
def boundsEmit (kw : PStr) (bounds : List TypeName) (w : CodeWriter) : CodeWriter :=
  match bounds with
  | [] => w
  | b :: rest => typeEmitSep " & ".toList rest (typeEmit b (w.emit kw))

/-- The upper-bound part of `WildcardTypeName.emit` (type_name.py lines
521–532): a sole bound structurally equal to `java.lang.Object` is
skipped (the unbounded wildcard); otherwise the bounds follow
`" extends "` joined with `" & "`. -/
def wildcardUppersEmit (uppers : List TypeName) (w : CodeWriter) : CodeWriter :=
  match uppers with
  | [] => w
  | [u] =>
    if eqObjectB u then w
    else typeEmit u (w.emit " extends ".toList)
  | u :: rest => typeEmitSep " & ".toList rest (typeEmit u (w.emit " extends ".toList))

/-- Emit the remaining elements of a bound/argument list, each preceded
by the separator (the `if i > 0: emit(sep)` pattern in the source). -/
def typeEmitSep (sep : PStr) (ts : List TypeName) (w : CodeWriter) : CodeWriter :=
  match ts with
  | [] => w
  | t :: rest => typeEmitSep sep rest (typeEmit t (w.emit sep))

end

/-- `CodeWriter.emit_type` (code_writer.py lines 156–179) for a
`TypeName` argument: a `ClassName` goes through `classNameEmitType`;
every other variant is emitted via its own `emit`. -/
def writerEmitType (t : TypeName) (w : CodeWriter) : CodeWriter :=
  match t with
  | .className p n => classNameEmitType p n w
  | t => typeEmit t w

/-- `str(type_name)`: render against a fresh `CodeWriter`
(`TypeName.__str__`). -/
def renderTypeName (t : TypeName) : PStr :=
  (typeEmit t freshWriter).out

/-- Group step of `CodeWriter.get_imports`: `result[package].add(name)`
on an insertion-ordered dict-of-sets model. -/
def dictAddName (d : List (PStr × List PStr)) (p n : PStr) : List (PStr × List PStr) :=
  match d with
  | [] => [(p, [n])]
  | (q, vs) :: rest =>
    if q = p then (q, setInsert vs n) :: rest
    else (q, vs) :: dictAddName rest p n

/-- `CodeWriter.get_imports` (code_writer.py lines 224–243): group the
recorded `ClassName`s with a non-empty package into a
package → simple-names mapping. -/
def getImports (w : CodeWriter) : List (PStr × List PStr) :=
  w.requiredImports.foldl
    (fun acc pr => if pr.1 ≠ [] then dictAddName acc pr.1 (lastName pr.2) else acc) []

mutual

/-- `CodeBlock` from `pyjavapoet/code_block.py`: format parts and bound
arguments. -/
inductive CodeBlock where
  | mk (format_parts : List PStr) (args : List Arg)

/-- The Python argument values bound in a `CodeBlock`: plain strings,
`TypeName`s and nested `CodeBlock`s (the value kinds the emit logic
distinguishes via `isinstance`/`hasattr`). -/
inductive Arg where
  | ofStr (s : PStr)
  | ofType (t : TypeName)
  | ofBlock (cb : CodeBlock)

end

/-- `re.search(r"\$([LSTN])", part)`: first occurrence of `$` followed
by one of the four placeholder letters, returned as
(text before, letter, text after). -/
def findPH : PStr → Option (PStr × Char × PStr)
  | c₁ :: c₂ :: rest =>
    if c₁ = '$' ∧ (c₂ = 'L' ∨ c₂ = 'S' ∨ c₂ = 'T' ∨ c₂ = 'N') then
      some ([], c₂, rest)
    else
      match findPH (c₂ :: rest) with
      | none => none
      | some (p, c, r) => some (c₁ :: p, c, r)
  | _ => none

/-- The splitting loop of `CodeBlock.Builder.add` (code_block.py lines
185–199): the non-empty gap before each match, the `$X` token itself,
and the non-empty tail after the last match.  `cur` accumulates the
pending gap in reverse. -/
def splitPartsAux : PStr → PStr → List PStr
  | [], cur => if cur = [] then [] else [cur.reverse]
  | [c], cur => [(c :: cur).reverse]
  | c₁ :: c₂ :: rest, cur =>
    if c₁ = '$' ∧ (c₂ = 'L' ∨ c₂ = 'S' ∨ c₂ = 'T' ∨ c₂ = 'N') then
      (if cur = [] then [] else [cur.reverse]) ++ [['$', c₂]] ++ splitPartsAux rest []
    else splitPartsAux (c₂ :: rest) (c₁ :: cur)

namespace CodeBlock

/-- `CodeBlock.format_parts`. -/
def format_parts : CodeBlock → List PStr
  | .mk parts _ => parts

/-- `CodeBlock.args`. -/
def args : CodeBlock → List Arg
  | .mk _ as => as

/-- `CodeBlock.Builder` state. -/
structure Builder where
  format_parts : List PStr
  args : List Arg

/-- `CodeBlock.builder()`. -/
def builder : Builder := ⟨[], []⟩

/-- `CodeBlock.Builder.add` (code_block.py lines 165–204).  With no
`$[LSTN]` match the whole format string is stored as one literal part
and — because of the early `return` — the supplied arguments are
silently discarded; otherwise the format string is split around its
placeholders and the arguments are appended.  No validation of any
kind is performed. -/
def Builder.add (b : Builder) (format_string : PStr) (newArgs : List Arg) : Builder :=
  if (findPH format_string).isNone then
    { b with format_parts := b.format_parts ++ [format_string] }
  else
    { format_parts := b.format_parts ++ splitPartsAux format_string [],
      args := b.args ++ newArgs }

/-- `CodeBlock.Builder.build` (code_block.py lines 262–269): copies the
accumulated state into an immutable `CodeBlock`; never raises. -/
def Builder.build (b : Builder) : CodeBlock :=
  .mk b.format_parts b.args

/-- `CodeBlock.of(format_string, *args)`. -/
def of (format_string : PStr) (as : List Arg) : CodeBlock :=
  (builder.add format_string as).build

end CodeBlock

/-- The `$S` escaping: `str(arg).replace("\\", "\\\\").replace('"', '\\"')`
(backslashes doubled first, then quotes escaped). -/
def escapeS (s : PStr) : PStr :=
  (s.flatMap (fun c => if c = '\\' then ['\\', '\\'] else [c])).flatMap
    (fun c => if c = '"' then ['\\', '"'] else [c])

/-- `hasattr(arg, "name")` and the `.name` read in the `$N` branch:
among the modelled argument kinds only a `TypeVariableName` exposes a
`name` attribute. -/
def argName : Arg → Option PStr
  | .ofType (.typeVariable n _) => some n
  | _ => none

/-- The argument-cursor advance of one `CodeBlock.emit` loop iteration:
a part with a placeholder consumes one argument when any is left
(`arg_index += 1`); a part without a placeholder consumes none. -/
def consumeArgs (p : PStr) (as : List Arg) : List Arg :=
  match findPH p with
  | none => as
  | some _ => as.tail

theorem sizeOf_consumeArgs (p : PStr) (as : List Arg) :
    sizeOf (consumeArgs p as) ≤ sizeOf as := by
  unfold consumeArgs
  cases findPH p with
  | none => simp
  | some pcr =>
    cases as with
    | nil => simp
    | cons v vrest => simp

theorem consumeArgs_lt (p : PStr) (r : List PStr) (as : List Arg) :
    sizeOf r + sizeOf (consumeArgs p as) < 1 + sizeOf p + sizeOf r + sizeOf as := by
  have := sizeOf_consumeArgs p as
  omega

mutual

/-- The loop of `CodeBlock.emit` (code_block.py lines 41–87),
threading the remaining (unconsumed) arguments: each part transforms
the writer by `emitPartWriter` and advances the argument cursor by
`consumeArgs`.  Returns the final writer and the remaining arguments. -/
def emitPartsAux (parts : List PStr) (as : List Arg) (w : CodeWriter) :
    CodeWriter × List Arg :=
  match parts with
  | [] => (w, as)
  | p :: rest => emitPartsAux rest (consumeArgs p as) (emitPartWriter p as w)
termination_by (sizeOf parts + sizeOf as, 0)
decreasing_by
  all_goals simp_wf
  all_goals apply Prod.Lex.left
  all_goals first
    | omega
    | exact consumeArgs_lt _ _ _

/-- The writer effect of one `CodeBlock.emit` loop iteration
(code_block.py lines 44–87): emit the text before the first
placeholder (when non-empty), substitute the placeholder only when an
argument is still available (`arg_index < len(self.args)`) — otherwise
it renders as nothing — then emit the text after it (when non-empty).
A part with no placeholder is emitted verbatim. -/
def emitPartWriter (p : PStr) (as : List Arg) (w : CodeWriter) : CodeWriter :=
  match findPH p with
  | none => w.emit p
  | some (pre, c, post) =>
    let w₁ := if pre.length > 0 then w.emit pre else w
    let w₂ :=
      match as with
      | [] => w₁
      | v :: _ => emitArg c v w₁
    if post ≠ [] then w₂.emit post else w₂
termination_by (sizeOf as, 4)
decreasing_by
  all_goals simp_wf
  all_goals first
    | (apply Prod.Lex.left; omega)
    | (apply Prod.Lex.right; omega)

/-- One placeholder substitution, dispatching on the placeholder letter
(the `$L`/`$S`/`$T`/`$N` branches of `CodeBlock.emit`; the letter is
always one of the four by construction of `findPH`). -/
def emitArg (c : Char) (v : Arg) (w : CodeWriter) : CodeWriter :=
  if c = 'L' then emitArgL v w
  else if c = 'S' then w.emit ('"' :: (escapeS (pyStr v) ++ ['"']))
  else if c = 'T' then emitArgT v w
  else emitArgN v w
termination_by (sizeOf v, 3)
decreasing_by
  all_goals simp_wf
  all_goals first
    | (apply Prod.Lex.left; omega)
    | (apply Prod.Lex.right; omega)

/-- The `$L` (literal) branch: a `CodeBlock` argument is emitted
recursively; anything else is emitted as `str(arg)`. -/
def emitArgL (v : Arg) (w : CodeWriter) : CodeWriter :=
  match v with
  | .ofBlock cb => emitBlock cb w
  | v => w.emit (pyStr v)
termination_by (sizeOf v, 2)
decreasing_by
  all_goals simp_wf
  all_goals first
    | (apply Prod.Lex.left; omega)
    | (apply Prod.Lex.right; omega)

/-- The `$T` (type) branch: `code_writer.emit_type(arg)` — a string is
first normalised through `TypeName.get`; a `ClassName` is registered
and printed short; any other object falls into the `type_name.emit`
call (which for a `CodeBlock` argument is `CodeBlock.emit`). -/
def emitArgT (v : Arg) (w : CodeWriter) : CodeWriter :=
  match v with
  | .ofStr s => writerEmitType (typeNameGetStr s) w
  | .ofType t => writerEmitType t w
  | .ofBlock cb => emitBlock cb w
termination_by (sizeOf v, 2)
decreasing_by
  all_goals simp_wf
  all_goals first
    | (apply Prod.Lex.left; omega)
    | (apply Prod.Lex.right; omega)

/-- The `$N` (name) branch: emit the `name` attribute when the argument
has one, otherwise `str(arg)`. -/
def emitArgN (v : Arg) (w : CodeWriter) : CodeWriter :=
  match argName v with
  | some n => w.emit n
  | none => w.emit (pyStr v)
termination_by (sizeOf v, 2)
decreasing_by
  all_goals simp_wf
  all_goals first
    | (apply Prod.Lex.left; omega)
    | (apply Prod.Lex.right; omega)

/-- Python `str(arg)` for the modelled argument kinds: strings are
themselves; `TypeName.__str__` and `CodeBlock.__str__` render against a
fresh `CodeWriter`. -/
def pyStr (v : Arg) : PStr :=
  match v with
  | .ofStr s => s
  | .ofType t => (typeEmit t freshWriter).out
  | .ofBlock cb => (emitBlock cb freshWriter).out
termination_by (sizeOf v, 0)
decreasing_by
  all_goals simp_wf
  all_goals first
    | (apply Prod.Lex.left; omega)
    | (apply Prod.Lex.right; omega)

/-- `CodeBlock.emit` (code_block.py lines 34–87). -/
def emitBlock (cb : CodeBlock) (w : CodeWriter) : CodeWriter :=
  (emitPartsAux cb.format_parts cb.args w).1
termination_by (sizeOf cb, 2)
decreasing_by
  all_goals simp_wf
  all_goals
    (cases cb
     apply Prod.Lex.left
     simp [CodeBlock.format_parts, CodeBlock.args]
     try omega)

end

/-- `str(code_block)` (`CodeBlock.__str__`): render against a fresh
`CodeWriter`. -/
def renderBlock (cb : CodeBlock) : PStr :=
  (emitBlock cb freshWriter).out

/-- `JavaFile._extract_wildcard_imports` (java_file.py lines 98–112):
the set of packages requested as `namespace.*`. -/
def extractWildcardImports (additionalImports : List PStr) : List PStr :=
  additionalImports.foldl
    (fun acc imp =>
      if endsWithDotStar imp then setInsert acc (imp.dropLast.dropLast) else acc)
    []

/-- The collected-imports step of `JavaFile._merge_all_specific_imports`:
`final_imports[package] = set()` when absent, then
`final_imports[package].update(simple_names)` (so a package key is
created even for an empty name set). -/
def dictEnsureUpdate (d : List (PStr × List PStr)) (p : PStr) (ns : List PStr) :
    List (PStr × List PStr) :=
  match d with
  | [] => [(p, ns.foldl setInsert [])]
  | (q, vs) :: rest =>
    if q = p then (q, ns.foldl setInsert vs) :: rest
    else (q, vs) :: dictEnsureUpdate rest p ns

/-- `JavaFile._merge_all_specific_imports` (java_file.py lines 114–147):
collected imports are kept unless their package has a wildcard import;
additional imports that are not wildcards and contain a dot are split
at the last dot and added, again unless their package has a wildcard. -/
def mergeAllSpecificImports (collectedImports : List (PStr × List PStr))
    (additionalImports : List PStr) (wildcardPackages : List PStr) :
    List (PStr × List PStr) :=
  let step1 := collectedImports.foldl
    (fun acc pr =>
      if pr.1 ∈ wildcardPackages then acc else dictEnsureUpdate acc pr.1 pr.2)
    []
  additionalImports.foldl
    (fun acc imp =>
      if ¬ endsWithDotStar imp ∧ '.' ∈ imp then
        let pn := rsplitDot imp
        if pn.1 ∈ wildcardPackages then acc else dictAddName acc pn.1 pn.2
      else acc)
    step1

/-- The text of a wildcard import line: `import package.*;`. -/
def wildcardLine (p : PStr) : PStr :=
  "import ".toList ++ p ++ ".*;".toList

/-- The text of a specific import line: `import package.Name;`. -/
def specificLine (p n : PStr) : PStr :=
  "import ".toList ++ p ++ ['.'] ++ n ++ [';']

/-- The combined wildcard-and-specific import lines built and sorted by
`JavaFile._emit_all_imports` (java_file.py lines 174–189): wildcard
lines, then specific lines, sorted together alphabetically as plain
text (`sorted(all_imports)`; insertion sort is stable, like CPython's
Timsort).  Static imports are emitted separately before this block and
are not part of it. -/
def emitAllImportLines (finalImports : List (PStr × List PStr))
    (wildcardPackages : List PStr) : List PStr :=
  List.insertionSort lexLeP
    (wildcardPackages.map wildcardLine ++
      finalImports.flatMap (fun pr => pr.2.map (fun n => specificLine pr.1 n)))

/-- `MethodSpec.Kind`. -/
inductive MKind where
  | METHOD | CONSTRUCTOR | COMPACT_CONSTRUCTOR
  deriving DecidableEq

/-- The immutable result of `MethodSpec.Builder.build` (the fields the
modelled checks read; parameters, exceptions, javadoc, annotations and
type variables are carried by the source object but play no role in
any validation). -/
structure MethodSpec where
  name : PStr
  modifiers : List Modifier
  return_type : Option TypeName
  code : Option CodeBlock
  default_value : Option CodeBlock
  kind : MKind

/-- `MethodSpec.Builder` state (method_spec.py lines 211–229):
`code_builder` is `None` exactly for compact constructors. -/
structure MethodBuilder where
  name : PStr
  kind : MKind
  modifiers : List Modifier
  return_type : Option TypeName
  code_builder : Option CodeBlock.Builder
  default_value : Option CodeBlock

/-- `MethodSpec.method_builder(name)`. -/
def methodBuilder (name : PStr) : MethodBuilder :=
  { name := name, kind := .METHOD, modifiers := [], return_type := none,
    code_builder := some CodeBlock.builder, default_value := none }

/-- `MethodSpec.Builder.build` (method_spec.py lines 449–479) followed
by the `MethodSpec.__init__` validation (lines 79–81): a METHOD-kind
builder that carries `ABSTRACT` and whose code builder holds any format
parts raises `ValueError("Abstract methods cannot have a body")`; a
constructor with a return type raises
`ValueError("Constructors cannot have a return type")`; otherwise the
immutable `MethodSpec` is produced. -/
def methodBuild (b : MethodBuilder) : Except PStr MethodSpec :=
  if b.kind = .METHOD ∧ Modifier.ABSTRACT ∈ b.modifiers ∧
      (b.code_builder.map CodeBlock.Builder.format_parts).getD [] ≠ [] then
    .error "Abstract methods cannot have a body".toList
  else if b.kind = .CONSTRUCTOR ∧ b.return_type.isSome then
    .error "Constructors cannot have a return type".toList
  else
    .ok { name := b.name, modifiers := b.modifiers,
          return_type := b.return_type,
          code := b.code_builder.map CodeBlock.Builder.build,
          default_value := b.default_value, kind := b.kind }

/-! Basic properties of `CodeWriter.emit`. -/

theorem emitCore_indentLevel (w : CodeWriter) (s : PStr) :
    (w.emitCore s).indentLevel = w.indentLevel := by
  unfold CodeWriter.emitCore
  split
  · rfl
  · split <;> rfl

theorem emit_indentLevel (w : CodeWriter) (s : PStr) :
    (w.emit s).indentLevel = w.indentLevel := by
  unfold CodeWriter.emit
  split <;> rw [emitCore_indentLevel]

theorem emitCore_indentStr (w : CodeWriter) (s : PStr) :
    (w.emitCore s).indentStr = w.indentStr := by
  unfold CodeWriter.emitCore
  split
  · rfl
  · split <;> rfl

theorem emit_indentStr (w : CodeWriter) (s : PStr) :
    (w.emit s).indentStr = w.indentStr := by
  unfold CodeWriter.emit
  split <;> rw [emitCore_indentStr]

theorem emitCore_requiredImports (w : CodeWriter) (s : PStr) :
    (w.emitCore s).requiredImports = w.requiredImports := by
  unfold CodeWriter.emitCore
  split
  · rfl
  · split <;> rfl

theorem emit_requiredImports (w : CodeWriter) (s : PStr) :
    (w.emit s).requiredImports = w.requiredImports := by
  unfold CodeWriter.emit
  split <;> rw [emitCore_requiredImports]

theorem indentText_zero (w : CodeWriter) (h : w.indentLevel = 0) :
    indentText w = [] := by
  simp [indentText, h]

theorem joinLinesWith_nil_ind (ls : List PStr) :
    joinLinesWith [] ls = intercalateC '\n' ls := by
  cases ls with
  | nil => rfl
  | cons first rest => simp [joinLinesWith, intercalateC, ite_self]

theorem emitCore_out_zero (w : CodeWriter) (s : PStr) (h : w.indentLevel = 0) :
    (w.emitCore s).out = w.out ++ s := by
  unfold CodeWriter.emitCore
  split
  · simp_all
  · split
    · rw [indentText_zero _ h]
      rw [joinLinesWith_nil_ind, intercalateC_splitOnC]
      simp
    · rw [indentText_zero _ h]
      rw [joinLinesWith_nil_ind, intercalateC_splitOnC]

/-- At indent level zero, `CodeWriter.emit` appends its argument to the
output verbatim. -/
theorem emit_out_zero (w : CodeWriter) (s : PStr) (h : w.indentLevel = 0) :
    (w.emit s).out = w.out ++ s := by
  unfold CodeWriter.emit
  split
  · rename_i hh
    rw [emitCore_out_zero _ _ (by simpa using h)]
    cases s with
    | nil => simp at hh
    | cons c t =>
      simp only [List.head?_cons, Option.some.injEq] at hh
      subst hh
      simp
  · rw [emitCore_out_zero _ _ h]

theorem addImport_indentLevel (w : CodeWriter) (k : PStr × List PStr) :
    (w.addImport k).indentLevel = w.indentLevel := by
  unfold CodeWriter.addImport
  split <;> rfl

theorem classNameEmitType_indentLevel (p : PStr) (n : List PStr) (w : CodeWriter) :
    (classNameEmitType p n w).indentLevel = w.indentLevel := by
  unfold classNameEmitType
  split <;> simp [emit_indentLevel, addImport_indentLevel]

mutual

theorem typeEmit_indentLevel (t : TypeName) (w : CodeWriter) :
    (typeEmit t w).indentLevel = w.indentLevel := by
  cases t with
  | className p n =>
    simp only [typeEmit]
    exact classNameEmitType_indentLevel p n w
  | arrayType comp =>
    simp only [typeEmit]
    rw [emit_indentLevel, typeEmit_indentLevel]
  | parameterized rawPkg rawNames args owner =>
    simp only [typeEmit]
    rw [typeArgsEmit_indentLevel, paramOwnerEmit_indentLevel]
  | typeVariable n bounds =>
    simp only [typeEmit]
    rw [boundsEmit_indentLevel, emit_indentLevel]
  | wildcard uppers lowers =>
    simp only [typeEmit]
    rw [boundsEmit_indentLevel, wildcardUppersEmit_indentLevel, emit_indentLevel]

theorem paramOwnerEmit_indentLevel (rawPkg : PStr) (rawNames : List PStr)
    (owner : Option TypeName) (w : CodeWriter) :
    (paramOwnerEmit rawPkg rawNames owner w).indentLevel = w.indentLevel := by
  cases owner with
  | some o =>
    simp only [paramOwnerEmit]
    rw [emit_indentLevel, emit_indentLevel, typeEmit_indentLevel]
  | none =>
    simp only [paramOwnerEmit]
    exact classNameEmitType_indentLevel _ _ _

theorem typeArgsEmit_indentLevel (args : List TypeName) (w : CodeWriter) :
    (typeArgsEmit args w).indentLevel = w.indentLevel := by
  cases args with
  | nil => simp only [typeArgsEmit]
  | cons a rest =>
    simp only [typeArgsEmit]
    rw [emit_indentLevel, typeEmitSep_indentLevel, typeEmit_indentLevel,
      emit_indentLevel]

theorem boundsEmit_indentLevel (kw : PStr) (bounds : List TypeName) (w : CodeWriter) :
    (boundsEmit kw bounds w).indentLevel = w.indentLevel := by
  cases bounds with
  | nil => simp only [boundsEmit]
  | cons b rest =>
    simp only [boundsEmit]
    rw [typeEmitSep_indentLevel, typeEmit_indentLevel, emit_indentLevel]

theorem wildcardUppersEmit_indentLevel (uppers : List TypeName) (w : CodeWriter) :
    (wildcardUppersEmit uppers w).indentLevel = w.indentLevel := by
  match uppers with
  | [] => simp only [wildcardUppersEmit]
  | [u] =>
    simp only [wildcardUppersEmit]
    split
    · rfl
    · rw [typeEmit_indentLevel, emit_indentLevel]
  | u :: u2 :: rest =>
    simp only [wildcardUppersEmit]
    rw [typeEmitSep_indentLevel, typeEmit_indentLevel, emit_indentLevel]

theorem typeEmitSep_indentLevel (sep : PStr) (ts : List TypeName) (w : CodeWriter) :
    (typeEmitSep sep ts w).indentLevel = w.indentLevel := by
  cases ts with
  | nil => simp only [typeEmitSep]
  | cons t rest =>
    simp only [typeEmitSep]
    rw [typeEmitSep_indentLevel, typeEmit_indentLevel, emit_indentLevel]

end

theorem writerEmitType_indentLevel (t : TypeName) (w : CodeWriter) :
    (writerEmitType t w).indentLevel = w.indentLevel := by
  cases t with
  | className p n => exact classNameEmitType_indentLevel p n w
  | arrayType c => exact typeEmit_indentLevel _ w
  | parameterized a b c d => exact typeEmit_indentLevel _ w
  | typeVariable a b => exact typeEmit_indentLevel _ w
  | wildcard a b => exact typeEmit_indentLevel _ w

mutual

theorem emitPartsAux_indentLevel (parts : List PStr) (as : List Arg) (w : CodeWriter) :
    (emitPartsAux parts as w).1.indentLevel = w.indentLevel := by
  cases parts with
  | nil => rw [emitPartsAux]
  | cons p rest =>
    rw [emitPartsAux]
    rw [emitPartsAux_indentLevel, emitPartWriter_indentLevel]
termination_by (sizeOf parts + sizeOf as, 0)
decreasing_by
  all_goals simp_wf
  all_goals apply Prod.Lex.left
  all_goals first
    | omega
    | exact consumeArgs_lt _ _ _

theorem emitPartWriter_indentLevel (p : PStr) (as : List Arg) (w : CodeWriter) :
    (emitPartWriter p as w).indentLevel = w.indentLevel := by
  rw [emitPartWriter.eq_def]
  cases hf : findPH p with
  | none => rw [emit_indentLevel]
  | some pcr =>
    obtain ⟨pre, c, post⟩ := pcr
    dsimp only
    have hw1 : ∀ w' : CodeWriter, w'.indentLevel = w.indentLevel →
        (if post ≠ [] then w'.emit post else w').indentLevel = w.indentLevel := by
      intro w' hw'
      split
      · rw [emit_indentLevel, hw']
      · exact hw'
    apply hw1
    cases as with
    | nil =>
      dsimp only
      split
      · rw [emit_indentLevel]
      · rfl
    | cons v vrest =>
      dsimp only
      rw [emitArg_indentLevel]
      split
      · rw [emit_indentLevel]
      · rfl
termination_by (sizeOf as, 4)
decreasing_by
  all_goals simp_wf
  all_goals first
    | (apply Prod.Lex.left; omega)
    | (apply Prod.Lex.right; omega)

theorem emitArg_indentLevel (c : Char) (v : Arg) (w : CodeWriter) :
    (emitArg c v w).indentLevel = w.indentLevel := by
  rw [emitArg]
  split
  · exact emitArgL_indentLevel v w
  · split
    · exact emit_indentLevel w _
    · split
      · exact emitArgT_indentLevel v w
      · exact emitArgN_indentLevel v w
termination_by (sizeOf v, 3)
decreasing_by
  all_goals simp_wf
  all_goals first
    | (apply Prod.Lex.left; omega)
    | (apply Prod.Lex.right; omega)

theorem emitArgL_indentLevel (v : Arg) (w : CodeWriter) :
    (emitArgL v w).indentLevel = w.indentLevel := by
  cases v with
  | ofBlock cb => rw [emitArgL]; exact emitBlock_indentLevel cb w
  | ofStr s => simp only [emitArgL]; exact emit_indentLevel w _
  | ofType t => simp only [emitArgL]; exact emit_indentLevel w _
termination_by (sizeOf v, 2)
decreasing_by
  all_goals simp_wf
  all_goals first
    | (apply Prod.Lex.left; omega)
    | (apply Prod.Lex.right; omega)

theorem emitArgT_indentLevel (v : Arg) (w : CodeWriter) :
    (emitArgT v w).indentLevel = w.indentLevel := by
  cases v with
  | ofStr s => rw [emitArgT]; exact writerEmitType_indentLevel _ w
  | ofType t => rw [emitArgT]; exact writerEmitType_indentLevel _ w
  | ofBlock cb => rw [emitArgT]; exact emitBlock_indentLevel cb w
termination_by (sizeOf v, 2)
decreasing_by
  all_goals simp_wf
  all_goals first
    | (apply Prod.Lex.left; omega)
    | (apply Prod.Lex.right; omega)

theorem emitArgN_indentLevel (v : Arg) (w : CodeWriter) :
    (emitArgN v w).indentLevel = w.indentLevel := by
  rw [emitArgN]
  cases hn : argName v with
  | some n => simp [emit_indentLevel]
  | none => simp [emit_indentLevel]

theorem emitBlock_indentLevel (cb : CodeBlock) (w : CodeWriter) :
    (emitBlock cb w).indentLevel = w.indentLevel := by
  rw [emitBlock]
  exact emitPartsAux_indentLevel cb.format_parts cb.args w
termination_by (sizeOf cb, 2)
decreasing_by
  all_goals simp_wf
  all_goals
    (cases cb
     apply Prod.Lex.left
     simp [CodeBlock.format_parts, CodeBlock.args]
     try omega)

end

/-- The text a format part contributes when no argument is available
for its placeholder: the literal text before and after the first
`$[LSTN]` match (a part with no match is emitted verbatim). -/
def stripPH (p : PStr) : PStr :=
  match findPH p with
  | none => p
  | some (pre, _, post) => pre ++ post

/-- The number of format parts carrying a placeholder — each consumes
at most one argument during `CodeBlock.emit`. -/
def phCount (parts : List PStr) : Nat :=
  parts.countP (fun p => (findPH p).isSome)

theorem consumeArgs_nil (p : PStr) : consumeArgs p [] = [] := by
  unfold consumeArgs
  cases findPH p <;> rfl

theorem emitPartsAux_snd_nil (parts : List PStr) (as : List Arg) (w : CodeWriter)
    (h : as.length ≤ phCount parts) : (emitPartsAux parts as w).2 = [] := by
  induction parts generalizing as w with
  | nil =>
    rw [emitPartsAux]
    simp only [phCount, List.countP_nil, Nat.le_zero] at h
    exact List.length_eq_zero.mp h
  | cons p rest ih =>
    rw [emitPartsAux]
    apply ih
    cases hf : findPH p with
    | none =>
      have : phCount (p :: rest) = phCount rest := by
        simp [phCount, List.countP_cons, hf]
      simp only [consumeArgs, hf]
      omega
    | some pcr =>
      have : phCount (p :: rest) = phCount rest + 1 := by
        simp [phCount, List.countP_cons, hf]
      simp only [consumeArgs, hf]
      cases as with
      | nil => simp
      | cons v vrest => simp only [List.tail_cons, List.length_cons] at h ⊢; omega

theorem emitPartsAux_nil_eq (as : List Arg) (w : CodeWriter) :
    emitPartsAux [] as w = (w, as) := by
  rw [emitPartsAux]

theorem emitPartsAux_cons_eq (p : PStr) (rest : List PStr) (as : List Arg)
    (w : CodeWriter) :
    emitPartsAux (p :: rest) as w =
      emitPartsAux rest (consumeArgs p as) (emitPartWriter p as w) := by
  rw [emitPartsAux]

theorem emitPartsAux_append (a b : List PStr) (as : List Arg) (w : CodeWriter) :
    emitPartsAux (a ++ b) as w =
      emitPartsAux b (emitPartsAux a as w).2 (emitPartsAux a as w).1 := by
  induction a generalizing as w with
  | nil => rw [emitPartsAux_nil_eq]; simp
  | cons p rest ih =>
    rw [List.cons_append, emitPartsAux_cons_eq, emitPartsAux_cons_eq, ih]

theorem emitPartWriter_nil_out (p : PStr) (w : CodeWriter)
    (h : w.indentLevel = 0) :
    (emitPartWriter p [] w).out = w.out ++ stripPH p := by
  rw [emitPartWriter.eq_def]
  cases hf : findPH p with
  | none => rw [emit_out_zero _ _ h]; simp [stripPH, hf]
  | some pcr =>
    obtain ⟨pre, c, post⟩ := pcr
    dsimp only
    have hpre : (if pre.length > 0 then w.emit pre else w).out = w.out ++ pre := by
      split
      · exact emit_out_zero _ _ h
      · simp_all
    have hlev : (if pre.length > 0 then w.emit pre else w).indentLevel = 0 := by
      split
      · rw [emit_indentLevel]; exact h
      · exact h
    simp only [stripPH, hf]
    split
    · rw [emit_out_zero _ _ hlev, hpre, List.append_assoc]
    · simp_all

theorem emitPartsAux_nil_out (parts : List PStr) (w : CodeWriter)
    (h : w.indentLevel = 0) :
    (emitPartsAux parts [] w).1.out = w.out ++ (parts.map stripPH).flatten := by
  induction parts generalizing w with
  | nil => rw [emitPartsAux_nil_eq]; simp
  | cons p rest ih =>
    rw [emitPartsAux_cons_eq, consumeArgs_nil]
    rw [ih _ (by rw [emitPartWriter_indentLevel]; exact h)]
    rw [emitPartWriter_nil_out _ _ h]
    simp

/-- `ClassName.__eq__` (type_name.py lines 216–219): structural
comparison of `package_name` and `simple_names` (the `isinstance`
guard restricts it to `ClassName` operands, the domain modelled here;
annotations are not compared). -/
def classNameEqB (a b : PStr × List PStr) : Bool :=
  a.1 == b.1 && a.2 == b.2

/-- The tuple `ClassName.__hash__` hashes (type_name.py lines 221–222):
`hash((self.package_name, tuple(self.simple_names)))`.  Equal tuples
hash equally in Python, so hash agreement reduces to agreement of this
key. -/
def classNameHashKey (a : PStr × List PStr) : PStr × List PStr :=
  (a.1, a.2)

/-! Set/dict model lemmas. -/

theorem mem_setInsert_self (l : List PStr) (x : PStr) : x ∈ setInsert l x := by
  unfold setInsert
  split
  · assumption
  · simp

theorem mem_setInsert_of_mem (l : List PStr) (x y : PStr) (h : x ∈ l) :
    x ∈ setInsert l y := by
  unfold setInsert
  split
  · exact h
  · simp [h]

theorem lookup_cons_self (k : PStr) (vs : List PStr) (rest : List (PStr × List PStr)) :
    List.lookup k ((k, vs) :: rest) = some vs := by
  simp [List.lookup]

theorem lookup_cons_ne (q k : PStr) (vs : List PStr) (rest : List (PStr × List PStr))
    (h : q ≠ k) : List.lookup q ((k, vs) :: rest) = List.lookup q rest := by
  simp only [List.lookup, show (q == k) = false from beq_eq_false_iff_ne.mpr h]

theorem dictAddName_lookup_other (d : List (PStr × List PStr)) (p n q : PStr)
    (h : q ≠ p) : (dictAddName d p n).lookup q = d.lookup q := by
  induction d with
  | nil =>
    simp only [dictAddName]
    rw [lookup_cons_ne _ _ _ _ h]
  | cons pr rest ih =>
    obtain ⟨k, vs⟩ := pr
    by_cases hk : k = p
    · simp only [dictAddName, if_pos hk]
      rw [lookup_cons_ne _ _ _ _ (hk ▸ h), lookup_cons_ne _ _ _ _ (hk ▸ h)]
    · simp only [dictAddName, if_neg hk]
      by_cases hqk : q = k
      · rw [hqk, lookup_cons_self, lookup_cons_self]
      · rw [lookup_cons_ne _ _ _ _ hqk, lookup_cons_ne _ _ _ _ hqk, ih]

theorem dictAddName_lookup_self_mem (d : List (PStr × List PStr)) (p n : PStr) :
    ∃ l, (dictAddName d p n).lookup p = some l ∧ n ∈ l ∧
      ∀ x ∈ (d.lookup p).getD [], x ∈ l := by
  induction d with
  | nil =>
    refine ⟨[n], ?_, by simp, by simp [List.lookup]⟩
    simp only [dictAddName]
    exact lookup_cons_self _ _ _
  | cons pr rest ih =>
    obtain ⟨k, vs⟩ := pr
    by_cases hk : k = p
    · refine ⟨setInsert vs n, ?_, mem_setInsert_self vs n, ?_⟩
      · simp only [dictAddName, if_pos hk]
        rw [← hk, lookup_cons_self]
      · intro x hx
        rw [← hk, lookup_cons_self] at hx
        exact mem_setInsert_of_mem _ _ _ (by simpa using hx)
    · obtain ⟨l, hl, hn, hsub⟩ := ih
      refine ⟨l, ?_, hn, ?_⟩
      · simp only [dictAddName, if_neg hk]
        rw [lookup_cons_ne _ _ _ _ (fun hpk => hk hpk.symm)]
        exact hl
      · intro x hx
        rw [lookup_cons_ne _ _ _ _ (fun hpk => hk hpk.symm)] at hx
        exact hsub x hx

theorem dictAddName_lookup_self (d : List (PStr × List PStr)) (p n : PStr) :
    ∃ l, (dictAddName d p n).lookup p = some l ∧ n ∈ l := by
  obtain ⟨l, hl, hn, _⟩ := dictAddName_lookup_self_mem d p n
  exact ⟨l, hl, hn⟩

theorem dictAddName_lookup_mem (d : List (PStr × List PStr)) (p n q x : PStr)
    (l : List PStr) (hl : d.lookup q = some l) (hx : x ∈ l) :
    ∃ l₂, (dictAddName d p n).lookup q = some l₂ ∧ x ∈ l₂ := by
  by_cases hq : q = p
  · obtain ⟨l₂, hl₂, _, hsub⟩ := dictAddName_lookup_self_mem d p n
    refine ⟨l₂, hq ▸ hl₂, hsub x ?_⟩
    rw [← hq, hl]
    exact hx
  · exact ⟨l, by rw [dictAddName_lookup_other _ _ _ _ hq]; exact hl, hx⟩

/-! Lemmas about the `get_from_fqcn` scan. -/

theorem fqcnFold_classNonempty (parts : List PStr) (pk cl : List PStr)
    (h : cl ≠ []) : parts.foldl fqcnStep (pk, cl) = (pk, cl ++ parts) := by
  induction parts generalizing cl with
  | nil => simp
  | cons part rest ih =>
    rw [List.foldl_cons]
    have hstep : fqcnStep (pk, cl) part = (pk, cl ++ [part]) := by
      unfold fqcnStep
      rw [if_pos (Or.inl h)]
    rw [hstep, ih _ (by simp [h])]
    simp

theorem fqcnFold_span (parts : List PStr) (pk : List PStr) :
    parts.foldl fqcnStep (pk, []) =
      (pk ++ parts.takeWhile (fun p => ¬ startsUpperPy p),
       parts.dropWhile (fun p => ¬ startsUpperPy p)) := by
  induction parts generalizing pk with
  | nil => simp
  | cons part rest ih =>
    rw [List.foldl_cons]
    by_cases hu : startsUpperPy part
    · have hstep : fqcnStep (pk, []) part = (pk, [part]) := by
        unfold fqcnStep
        rw [if_pos (Or.inr hu)]
        simp
      rw [hstep, fqcnFold_classNonempty _ _ _ (by simp)]
      simp [List.takeWhile_cons, List.dropWhile_cons, hu]
    · have hstep : fqcnStep (pk, []) part = (pk ++ [part], []) := by
        unfold fqcnStep
        simp [hu]
      rw [hstep, ih]
      simp [List.takeWhile_cons, List.dropWhile_cons, hu]

/-! Key invariants of the import merge. -/

theorem dictEnsureUpdate_keys (d : List (PStr × List PStr)) (p : PStr)
    (ns : List PStr) (pr : PStr × List PStr) (h : pr ∈ dictEnsureUpdate d p ns) :
    pr.1 = p ∨ ∃ vs, (pr.1, vs) ∈ d := by
  induction d with
  | nil =>
    simp only [dictEnsureUpdate, List.mem_singleton] at h
    left
    rw [h]
  | cons hd rest ih =>
    obtain ⟨k, vs⟩ := hd
    by_cases hk : k = p
    · simp only [dictEnsureUpdate, if_pos hk, List.mem_cons] at h
      rcases h with h | h
      · left; rw [h, hk]
      · right; exact ⟨pr.2, by simp [h]⟩
    · simp only [dictEnsureUpdate, if_neg hk, List.mem_cons] at h
      rcases h with h | h
      · right; exact ⟨vs, by simp [h]⟩
      · rcases ih h with h₂ | ⟨vs₂, h₂⟩
        · left; exact h₂
        · right; exact ⟨vs₂, by simp [h₂]⟩

theorem dictAddName_keys (d : List (PStr × List PStr)) (p n : PStr)
    (pr : PStr × List PStr) (h : pr ∈ dictAddName d p n) :
    pr.1 = p ∨ ∃ vs, (pr.1, vs) ∈ d := by
  induction d with
  | nil =>
    simp only [dictAddName, List.mem_singleton] at h
    left
    rw [h]
  | cons hd rest ih =>
    obtain ⟨k, vs⟩ := hd
    by_cases hk : k = p
    · simp only [dictAddName, if_pos hk, List.mem_cons] at h
      rcases h with h | h
      · left; rw [h, hk]
      · right; exact ⟨pr.2, by simp [h]⟩
    · simp only [dictAddName, if_neg hk, List.mem_cons] at h
      rcases h with h | h
      · right; exact ⟨vs, by simp [h]⟩
      · rcases ih h with h₂ | ⟨vs₂, h₂⟩
        · left; exact h₂
        · right; exact ⟨vs₂, by simp [h₂]⟩

theorem mergeAll_keys (collected : List (PStr × List PStr))
    (additional : List PStr) (wild : List PStr) (pr : PStr × List PStr)
    (h : pr ∈ mergeAllSpecificImports collected additional wild) : pr.1 ∉ wild := by
  unfold mergeAllSpecificImports at h
  have step1 :
      ∀ (l : List (PStr × List PStr)) (acc : List (PStr × List PStr)),
        (∀ q ∈ acc, q.1 ∉ wild) →
        ∀ q ∈ l.foldl
            (fun acc pr =>
              if pr.1 ∈ wild then acc else dictEnsureUpdate acc pr.1 pr.2) acc,
          q.1 ∉ wild := by
    intro l
    induction l with
    | nil => intro acc hacc q hq; exact hacc q hq
    | cons hd rest ih =>
      intro acc hacc q hq
      rw [List.foldl_cons] at hq
      refine ih _ ?_ q hq
      intro r hr
      by_cases hw : hd.1 ∈ wild
      · rw [if_pos hw] at hr; exact hacc r hr
      · rw [if_neg hw] at hr
        rcases dictEnsureUpdate_keys _ _ _ _ hr with h₂ | ⟨vs, h₂⟩
        · rw [h₂]; exact hw
        · exact hacc (r.1, vs) h₂
  have step2 :
      ∀ (l : List PStr) (acc : List (PStr × List PStr)),
        (∀ q ∈ acc, q.1 ∉ wild) →
        ∀ q ∈ l.foldl
            (fun acc imp =>
              if ¬ endsWithDotStar imp ∧ '.' ∈ imp then
                if (rsplitDot imp).1 ∈ wild then acc
                else dictAddName acc (rsplitDot imp).1 (rsplitDot imp).2
              else acc) acc,
          q.1 ∉ wild := by
    intro l
    induction l with
    | nil => intro acc hacc q hq; exact hacc q hq
    | cons hd rest ih =>
      intro acc hacc q hq
      rw [List.foldl_cons] at hq
      refine ih _ ?_ q hq
      intro r hr
      by_cases hc : ¬ endsWithDotStar hd ∧ '.' ∈ hd
      · rw [if_pos hc] at hr
        by_cases hw : (rsplitDot hd).1 ∈ wild
        · rw [if_pos hw] at hr; exact hacc r hr
        · rw [if_neg hw] at hr
          rcases dictAddName_keys _ _ _ _ hr with h₂ | ⟨vs, h₂⟩
          · rw [h₂]; exact hw
          · exact hacc (r.1, vs) h₂
      · rw [if_neg hc] at hr; exact hacc r hr
  exact step2 additional _ (step1 collected [] (by simp)) pr h

/-! The `get_imports` grouping reflects every recorded import. -/

theorem getImportsFold_preserve (imports : List (PStr × List PStr))
    (acc : List (PStr × List PStr)) (q x : PStr) (l : List PStr)
    (hl : acc.lookup q = some l) (hx : x ∈ l) :
    ∃ l₂,
      (imports.foldl
          (fun acc pr =>
            if pr.1 ≠ [] then dictAddName acc pr.1 (lastName pr.2) else acc)
          acc).lookup q = some l₂ ∧ x ∈ l₂ := by
  induction imports generalizing acc l with
  | nil => exact ⟨l, hl, hx⟩
  | cons pr rest ih =>
    rw [List.foldl_cons]
    by_cases hp : pr.1 ≠ []
    · rw [if_pos hp]
      obtain ⟨l₂, hl₂, hx₂⟩ := dictAddName_lookup_mem acc pr.1 (lastName pr.2) q x l hl hx
      exact ih _ _ hl₂ hx₂
    · rw [if_neg hp]
      exact ih _ _ hl hx

theorem getImportsFold_mem (imports : List (PStr × List PStr))
    (acc : List (PStr × List PStr)) (pkg : PStr) (names : List PStr)
    (hmem : (pkg, names) ∈ imports) (hne : pkg ≠ []) :
    ∃ l,
      (imports.foldl
          (fun acc pr =>
            if pr.1 ≠ [] then dictAddName acc pr.1 (lastName pr.2) else acc)
          acc).lookup pkg = some l ∧ lastName names ∈ l := by
  induction imports generalizing acc with
  | nil => simp at hmem
  | cons pr rest ih =>
    rw [List.foldl_cons]
    rcases List.mem_cons.mp hmem with heq | htail
    · rw [← heq]
      rw [if_pos (by simpa using hne)]
      obtain ⟨l, hl, hn⟩ := dictAddName_lookup_self acc pkg (lastName names)
      exact getImportsFold_preserve rest _ pkg (lastName names) l hl hn
    · exact ih _ htail

theorem getImports_mem_of_required (w : CodeWriter) (pkg : PStr) (names : List PStr)
    (hmem : (pkg, names) ∈ w.requiredImports) (hne : pkg ≠ []) :
    ∃ l, (getImports w).lookup pkg = some l ∧ lastName names ∈ l := by
  unfold getImports
  exact getImportsFold_mem w.requiredImports [] pkg names hmem hne

theorem addImport_mem (w : CodeWriter) (k : PStr × List PStr) :
    k ∈ (w.addImport k).requiredImports := by
  unfold CodeWriter.addImport
  split
  · assumption
  · simp

/-! Claim theorems. -/

/-- C1: the claim says every malformed placeholder (a dangling `$`, an
explicit index with no corresponding argument, a named placeholder) and
every call with unused positional arguments raises a descriptive error
at the `add`/`build` call.  The repository's own tests
(test_code_block.py) assert those `ValueError`s, but
`CodeBlock.Builder.add`/`build` in src/ perform no validation at all:
each of the four calls below returns an ordinary `CodeBlock`, storing
the malformed format text as a literal part and silently discarding
the supplied argument. -/
theorem c1_template_errors_never_raised :
    CodeBlock.of "$".toList [] = CodeBlock.mk ["$".toList] []
    ∧ CodeBlock.of "$1T".toList [] = CodeBlock.mk ["$1T".toList] []
    ∧ CodeBlock.of "$text:S".toList [] = CodeBlock.mk ["$text:S".toList] []
    ∧ CodeBlock.of "test".toList [Arg.ofStr "1".toList] =
        CodeBlock.mk ["test".toList] [] :=
  ⟨rfl, rfl, rfl, rfl⟩

/-- C2: the claim says emitted modifiers always follow the fixed
canonical order (visibility, abstract, static, final, …).  The code's
own canonical order (`Modifier.ordered_modifiers`, used by
`FieldSpec.emit`) puts `public` before `final`, and the repository's
golden test (test_hello_world.py) expects `public final class`, but
`MethodSpec.emit` and `TypeSpec.emit` sort the modifier keywords
alphabetically, emitting `final public `. -/
theorem c2_modifiers_sorted_alphabetically_not_canonically :
    Modifier.sortedByValue [Modifier.PUBLIC, Modifier.FINAL] =
        [Modifier.FINAL, Modifier.PUBLIC]
    ∧ Modifier.ordered_modifiers [Modifier.PUBLIC, Modifier.FINAL] =
        [Modifier.PUBLIC, Modifier.FINAL]
    ∧ Modifier.emittedModifierText [Modifier.PUBLIC, Modifier.FINAL] =
        "final public ".toList := by
  refine ⟨by decide, by decide, by decide⟩

/-- C3: the claim (and the repository's test
`test_same_index_can_be_used_with_different_formats`) says
`"$1T.out.println($1S)"` with one class argument renders the type at
the first site and the quoted string at the second.  In src/, `$1T` and
`$1S` never match the `\$([LSTN])` pattern, so `Builder.add` stores the
whole template as a literal part — discarding the argument — and
`emit` prints the template text verbatim. -/
theorem c3_indexed_placeholders_not_substituted :
    CodeBlock.of "$1T.out.println($1S)".toList
        [Arg.ofType (.className "java.lang".toList ["System".toList])] =
      CodeBlock.mk ["$1T.out.println($1S)".toList] []
    ∧ renderBlock
        (CodeBlock.of "$1T.out.println($1S)".toList
          [Arg.ofType (.className "java.lang".toList ["System".toList])]) =
      "$1T.out.println($1S)".toList := by
  constructor
  · rfl
  · have h : findPH "$1T.out.println($1S)".toList = none := by decide
    simp only [renderBlock, CodeBlock.of, CodeBlock.builder, CodeBlock.Builder.add,
      CodeBlock.Builder.build, h, Option.isNone_none, if_pos, List.nil_append]
    simp only [emitBlock, CodeBlock.format_parts, CodeBlock.args]
    rw [emitPartsAux_cons_eq, emitPartsAux_nil_eq]
    simp only [emitPartWriter.eq_def, h]
    decide

/-- C10: `TypeName.get` applied to a value that is neither a
`TypeName`, nor a string, nor a Python `type` object falls off the end
of the function and returns Python `None` rather than raising; every
input of the three supported kinds produces a type reference. -/
theorem c10_typename_get_none_iff_unsupported (v : PyVal) :
    typeNameGet v = none ↔ v = PyVal.other := by
  cases v with
  | ofTypeName t => simp [typeNameGet]
  | ofStr s => simp [typeNameGet]
  | ofPyType n =>
    simp only [typeNameGet]
    cases typeMapping.lookup n <;> simp
  | other => simp [typeNameGet]

/-- C5 counterexample: the claim says type references are equal iff
their canonical rendered strings are equal.  `ClassName.__eq__`
compares `(package_name, simple_names)` structurally, while rendering
a `ClassName` prints only its simple name, so `a.b.Foo` and `c.d.Foo`
render identically yet compare unequal. -/
theorem c5_render_equal_but_not_equal :
    classNameEqB ("a.b".toList, ["Foo".toList]) ("c.d".toList, ["Foo".toList]) = false
    ∧ renderTypeName (.className "a.b".toList ["Foo".toList]) =
        renderTypeName (.className "c.d".toList ["Foo".toList]) := by
  refine ⟨by decide, ?_⟩
  simp only [renderTypeName, typeEmit]
  decide

/-- C5 (amended): `ClassName` equality is structural — it holds iff the
package name and the simple-name sequence match — not
rendered-string equality; and equal references feed the identical
tuple to `hash`, so equal references have equal hashes. -/
theorem c5_classname_eq_structural (a b : PStr × List PStr) :
    (classNameEqB a b = true ↔ a.1 = b.1 ∧ a.2 = b.2)
    ∧ (classNameEqB a b = true → classNameHashKey a = classNameHashKey b) := by
  constructor
  · simp [classNameEqB]
  · intro h
    simp only [classNameEqB, Bool.and_eq_true, beq_iff_eq] at h
    simp [classNameHashKey, h.1, h.2]

/-- C5 witness. -/
theorem c5_classname_eq_structural_witness :
    classNameEqB ("a.b".toList, ["Foo".toList]) ("a.b".toList, ["Foo".toList]) = true
    ∧ classNameHashKey ("a.b".toList, ["Foo".toList]) =
        classNameHashKey ("a.b".toList, ["Foo".toList]) :=
  ⟨by decide,
   (c5_classname_eq_structural ("a.b".toList, ["Foo".toList])
     ("a.b".toList, ["Foo".toList])).2 (by decide)⟩

/-- C8 counterexample: the claim says the class path starts at the
first segment beginning with an uppercase ASCII letter
(`claimSplitFqcn`).  Python's `str.isupper` is Unicode-aware, so for
`"Ü.Foo"` the code starts the class path at `Ü` while the
ASCII-letter reading would put `Ü` in the namespace. -/
theorem c8_ascii_reading_differs_on_unicode :
    getFromFqcn "Ü.Foo".toList ≠ claimSplitFqcn "Ü.Foo".toList
    ∧ getFromFqcn "Ü.Foo".toList = ([], ["Ü".toList, "Foo".toList])
    ∧ claimSplitFqcn "Ü.Foo".toList = ("Ü".toList, ["Foo".toList]) := by
  refine ⟨by decide, by decide, by decide⟩

/-- C8 (amended): for every dotted input, `get_from_fqcn` scans the
segments left to right and treats the first segment whose first
character is uppercase per Python's Unicode-aware `str.isupper`
(`startsUpperPy`) as the start of the class path: that segment and
every later segment form the class path, every earlier segment forms
the namespace. -/
theorem c8_fqcn_splits_at_first_upper_segment (s : PStr) (h : '.' ∈ s) :
    getFromFqcn s =
      (intercalateC '.' ((splitOnC '.' s).takeWhile (fun p => ¬ startsUpperPy p)),
       (splitOnC '.' s).dropWhile (fun p => ¬ startsUpperPy p)) := by
  unfold getFromFqcn
  rw [if_pos h]
  simp only [fqcnFold_span]
  simp

/-- C8 witness. -/
theorem c8_fqcn_splits_witness :
    '.' ∈ "com.example.Foo.Bar".toList
    ∧ getFromFqcn "com.example.Foo.Bar".toList =
        (intercalateC '.'
          ((splitOnC '.' "com.example.Foo.Bar".toList).takeWhile
            (fun p => ¬ startsUpperPy p)),
         (splitOnC '.' "com.example.Foo.Bar".toList).dropWhile
           (fun p => ¬ startsUpperPy p)) :=
  ⟨by decide, c8_fqcn_splits_at_first_upper_segment "com.example.Foo.Bar".toList (by decide)⟩

/-- C4 counterexample: the claim says types in the standard-library
root namespace (java.lang) are never registered for import, but
`emit_type` records every `ClassName` with a non-empty package —
`java.lang.System` included (the repository's hello-world golden test
even expects the line `import java.lang.System;`). -/
theorem c4_java_lang_is_registered :
    ("java.lang".toList, ["System".toList]) ∈
      (writerEmitType (.className "java.lang".toList ["System".toList])
        freshWriter).requiredImports := by
  decide

/-- C4 (amended): `emit_type` on a named type records the
(namespace, simple-names) pair into the running import set whenever
the namespace is non-empty — java.lang types included — and
`get_imports` then groups the simple name under that namespace; a
named type with an empty namespace (which is how every primitive token
is represented by `TypeName.get`) is never registered. -/
theorem c4_emit_type_import_registration (pkg : PStr) (names : List PStr)
    (w : CodeWriter) :
    (pkg ≠ [] →
      (pkg, names) ∈ (writerEmitType (.className pkg names) w).requiredImports
      ∧ ∃ l,
          (getImports (writerEmitType (.className pkg names) w)).lookup pkg = some l
          ∧ lastName names ∈ l)
    ∧ (pkg = [] →
      (writerEmitType (.className pkg names) w).requiredImports = w.requiredImports)
    ∧ (∀ p, p ∈ primitiveNames →
      (writerEmitType (typeNameGetStr p) w).requiredImports = w.requiredImports) := by
  have hemit : ∀ (pkg₂ : PStr) (names₂ : List PStr) (w₂ : CodeWriter),
      (writerEmitType (.className pkg₂ names₂) w₂).requiredImports =
        (if pkg₂ ≠ [] then w₂.addImport (pkg₂, names₂) else w₂).requiredImports := by
    intro pkg₂ names₂ w₂
    show (classNameEmitType pkg₂ names₂ w₂).requiredImports = _
    unfold classNameEmitType
    rw [emit_requiredImports]
  refine ⟨?_, ?_, ?_⟩
  · intro hne
    have hmem : (pkg, names) ∈ (writerEmitType (.className pkg names) w).requiredImports := by
      rw [hemit, if_pos hne]
      exact addImport_mem w (pkg, names)
    exact ⟨hmem, getImports_mem_of_required _ pkg names hmem hne⟩
  · intro hemp
    rw [hemit, if_neg (by simp [hemp])]
  · intro p hp
    have hempn : ∀ nm : List PStr,
        (writerEmitType (.className [] nm) w).requiredImports = w.requiredImports := by
      intro nm
      rw [hemit, if_neg (by simp)]
    simp only [primitiveNames, List.mem_cons, List.not_mem_nil, or_false] at hp
    rcases hp with rfl | rfl | rfl | rfl | rfl | rfl | rfl | rfl | rfl <;>
      exact hempn _

/-- C4 witness. -/
theorem c4_emit_type_import_registration_witness :
    "java.util".toList ≠ []
    ∧ (("java.util".toList, ["List".toList]) ∈
        (writerEmitType (.className "java.util".toList ["List".toList])
          freshWriter).requiredImports
      ∧ ∃ l,
          (getImports (writerEmitType (.className "java.util".toList ["List".toList])
            freshWriter)).lookup "java.util".toList = some l
          ∧ lastName ["List".toList] ∈ l) :=
  ⟨by decide,
   (c4_emit_type_import_registration "java.util".toList ["List".toList]
     freshWriter).1 (by decide)⟩

/-- C7: a METHOD-kind builder that carries the `ABSTRACT` modifier and
whose code builder holds any format parts fails at `build()` with
`ValueError("Abstract methods cannot have a body")` — a message that
mentions "abstract" (case-insensitively) and "body" — while an
abstract method with an empty body builds successfully. -/
theorem c7_abstract_method_body_check (b : MethodBuilder)
    (hk : b.kind = MKind.METHOD) :
    (Modifier.ABSTRACT ∈ b.modifiers →
      (b.code_builder.map CodeBlock.Builder.format_parts).getD [] ≠ [] →
      methodBuild b = .error "Abstract methods cannot have a body".toList
      ∧ containsSub (lowerAscii "Abstract methods cannot have a body".toList)
          "abstract".toList = true
      ∧ containsSub "Abstract methods cannot have a body".toList
          "body".toList = true)
    ∧ (Modifier.ABSTRACT ∈ b.modifiers →
      (b.code_builder.map CodeBlock.Builder.format_parts).getD [] = [] →
      ∃ m, methodBuild b = .ok m) := by
  constructor
  · intro hab hne
    refine ⟨?_, by decide, by decide⟩
    unfold methodBuild
    rw [if_pos ⟨hk, hab, hne⟩]
  · intro hab hemp
    unfold methodBuild
    rw [if_neg (by simp [hemp]), if_neg (by simp [hk])]
    exact ⟨_, rfl⟩

/-- C7 witness (both an abstract builder with a body and one without). -/
theorem c7_abstract_method_body_check_witness :
    ({ name := "m".toList, kind := MKind.METHOD,
       modifiers := [Modifier.ABSTRACT], return_type := none,
       code_builder := some ⟨["x".toList], []⟩,
       default_value := none } : MethodBuilder).kind = MKind.METHOD
    ∧ methodBuild
        { name := "m".toList, kind := MKind.METHOD,
          modifiers := [Modifier.ABSTRACT], return_type := none,
          code_builder := some ⟨["x".toList], []⟩, default_value := none } =
        .error "Abstract methods cannot have a body".toList
    ∧ ∃ m, methodBuild
        { name := "m".toList, kind := MKind.METHOD,
          modifiers := [Modifier.ABSTRACT], return_type := none,
          code_builder := some ⟨[], []⟩, default_value := none } = .ok m :=
  ⟨rfl,
   ((c7_abstract_method_body_check _ rfl).1 (by decide) (by decide)).1,
   (c7_abstract_method_body_check _ rfl).2 (by decide) (by decide)⟩

/-- C9: once the bound argument list is exhausted — in particular for
every `CodeBlock` whose argument list is shorter than the number of
placeholder-bearing format parts — `CodeBlock.emit` raises nothing:
every later placeholder renders as nothing while the literal text
before and after it is still emitted in order (`stripPH`). -/
theorem c9_missing_args_render_nothing (parts₁ parts₂ : List PStr)
    (as : List Arg) (w : CodeWriter) (h0 : w.indentLevel = 0)
    (hlen : as.length ≤ phCount parts₁) :
    (emitBlock (CodeBlock.mk (parts₁ ++ parts₂) as) w).out =
      (emitBlock (CodeBlock.mk parts₁ as) w).out ++ (parts₂.map stripPH).flatten := by
  rw [emitBlock, emitBlock]
  simp only [CodeBlock.format_parts, CodeBlock.args]
  rw [emitPartsAux_append]
  rw [emitPartsAux_snd_nil parts₁ as w hlen]
  exact emitPartsAux_nil_out parts₂ _ (by rw [emitPartsAux_indentLevel]; exact h0)

/-- C9 witness: one argument, two placeholder parts — the second
placeholder renders as nothing, its surrounding text survives. -/
theorem c9_missing_args_render_nothing_witness :
    freshWriter.indentLevel = 0
    ∧ [Arg.ofStr "x".toList].length ≤ phCount ["$L".toList]
    ∧ (emitBlock (CodeBlock.mk (["$L".toList] ++ ["a$Sb".toList])
          [Arg.ofStr "x".toList]) freshWriter).out =
        (emitBlock (CodeBlock.mk ["$L".toList] [Arg.ofStr "x".toList])
          freshWriter).out ++ ((["a$Sb".toList]).map stripPH).flatten :=
  ⟨rfl, by decide,
   c9_missing_args_render_nothing ["$L".toList] ["a$Sb".toList]
     [Arg.ofStr "x".toList] freshWriter rfl (by decide)⟩

/-- C6: a wildcard request `namespace.*` suppresses every
specific import from that namespace — both collected-from-tree and
explicitly-requested ones never reach the merged map — and the
emitted wildcard-and-specific import lines are sorted together
alphabetically as plain text, not grouped by kind: every line is
either the wildcard line of a requested wildcard package or a
specific line for a package with no wildcard. -/
theorem c6_wildcard_suppression_and_sorted_lines
    (collected : List (PStr × List PStr)) (additional : List PStr) (p : PStr)
    (hp : p ∈ extractWildcardImports additional) :
    (∀ vs, (p, vs) ∉
      mergeAllSpecificImports collected additional (extractWildcardImports additional))
    ∧ List.Sorted lexLeP
        (emitAllImportLines
          (mergeAllSpecificImports collected additional
            (extractWildcardImports additional))
          (extractWildcardImports additional))
    ∧ wildcardLine p ∈
        emitAllImportLines
          (mergeAllSpecificImports collected additional
            (extractWildcardImports additional))
          (extractWildcardImports additional)
    ∧ (∀ l ∈ emitAllImportLines
          (mergeAllSpecificImports collected additional
            (extractWildcardImports additional))
          (extractWildcardImports additional),
        (∃ q, q ∈ extractWildcardImports additional ∧ l = wildcardLine q)
        ∨ (∃ q ns n,
            (q, ns) ∈ mergeAllSpecificImports collected additional
              (extractWildcardImports additional)
            ∧ q ∉ extractWildcardImports additional
            ∧ n ∈ ns ∧ l = specificLine q n)) := by
  refine ⟨?_, ?_, ?_, ?_⟩
  · intro vs hmem
    exact mergeAll_keys collected additional _ (p, vs) hmem hp
  · exact List.sorted_insertionSort lexLeP _
  · unfold emitAllImportLines
    rw [(List.perm_insertionSort lexLeP _).mem_iff]
    exact List.mem_append_left _ (List.mem_map_of_mem wildcardLine hp)
  · intro l hl
    unfold emitAllImportLines at hl
    rw [(List.perm_insertionSort lexLeP _).mem_iff] at hl
    rcases List.mem_append.mp hl with h | h
    · obtain ⟨q, hq, rfl⟩ := List.mem_map.mp h
      exact Or.inl ⟨q, hq, rfl⟩
    · obtain ⟨pr, hpr, hline⟩ := List.mem_flatMap.mp h
      obtain ⟨n, hn, rfl⟩ := List.mem_map.mp hline
      exact Or.inr ⟨pr.1, pr.2, n,
        by simpa using hpr,
        mergeAll_keys collected additional _ pr hpr, hn, rfl⟩

/-- C6 witness: `java.util.*` suppresses the collected
`java.util.List`; `com.x.Y` survives. -/
theorem c6_wildcard_suppression_witness :
    "java.util".toList ∈
      extractWildcardImports ["java.util.*".toList, "com.x.Y".toList]
    ∧ (∀ vs, ("java.util".toList, vs) ∉
        mergeAllSpecificImports [("java.util".toList, ["List".toList])]
          ["java.util.*".toList, "com.x.Y".toList]
          (extractWildcardImports ["java.util.*".toList, "com.x.Y".toList]))
    ∧ List.Sorted lexLeP
        (emitAllImportLines
          (mergeAllSpecificImports [("java.util".toList, ["List".toList])]
            ["java.util.*".toList, "com.x.Y".toList]
            (extractWildcardImports ["java.util.*".toList, "com.x.Y".toList]))
          (extractWildcardImports ["java.util.*".toList, "com.x.Y".toList])) := by
  have h := c6_wildcard_suppression_and_sorted_lines
    [("java.util".toList, ["List".toList])]
    ["java.util.*".toList, "com.x.Y".toList] "java.util".toList (by decide)
  exact ⟨by decide, h.1, h.2.1⟩

end PyJavaPoet
